import Mathlib

/-!
# Verification of the fjall core against its specification

A shallow embedding, in Lean 4, of the core of the fjall key-value storage
engine: the write/read transaction layer (`src/tx/write_tx.rs`,
`src/tx/read_tx.rs`), the sharded write-ahead journal (`src/journal/mod.rs`
and, for the parts whose sources are not in the repository snapshot, the
on-disk format and recovery algorithm of the specification), and the
compaction manager and worker (`src/fjall/src/compaction/manager.rs`,
`src/compaction/worker.rs`).

Byte strings are `List Nat`; machine integers are `Nat` with explicit
modular reduction where overflow matters.  Fallible operations return
`Option`.  The external LSM-tree collaborator (crate `lsm_tree`) is modelled
from the interface contract of the specification (section 6.3 and the data
model of section 3).
-/

namespace Fjall

/-- A byte string: user keys, user values and partition names. -/
abbrev Bytes := List Nat

/-- Record kind: a regular value or a tombstone (deletion marker).
Mirrors `lsm_tree::ValueType` (`0 = Value`, `1 = Tombstone`). -/
inductive ValueType where
  | value
  | tombstone
deriving DecidableEq

/-- An internal record: user key, sequence number, value type and value
bytes.  Mirrors `lsm_tree::InternalValue` (key = (user_key, seqno,
value_type), plus the value). -/
structure InternalValue where
  userKey : Bytes
  seqno : Nat
  valueType : ValueType
  value : Bytes
deriving DecidableEq

/-- `InternalValue::is_tombstone` of `lsm_tree`. -/
def InternalValue.is_tombstone (item : InternalValue) : Bool :=
  item.valueType == ValueType.tombstone

/-- The sentinel `SeqNo::MAX` (`u64::MAX`) used for staged writes inside a
write transaction (`write_tx.rs`, `insert`/`remove`). -/
def seqnoMax : Nat := 18446744073709551615

/-- A memtable: an ordered mapping from `(user_key, seqno)` to records,
supplied by the tree primitive (spec section 3).  Modelled as a list of
records in which `insert` overwrites an existing record with the same
`(user_key, seqno)` pair. -/
abbrev Memtable := List InternalValue

/-- `Memtable::insert`: adds a record, replacing any record with the same
`(user_key, seqno)` key (the memtable is a map keyed by that pair). -/
def Memtable.insert (mt : Memtable) (item : InternalValue) : Memtable :=
  item :: mt.filter
    (fun x => !(x.userKey == item.userKey && x.seqno == item.seqno))

/-- `Memtable::get(key, seqno)`: the highest version of `key`, restricted to
versions with seqno strictly below the bound when one is given.  The write
transaction always calls it with bound `None`. -/
def Memtable.get (mt : Memtable) (key : Bytes) (seqnoBound : Option Nat) :
    Option InternalValue :=
  (mt.filter (fun x => x.userKey == key &&
      match seqnoBound with
      | none => true
      | some s => decide (x.seqno < s))).foldl
    (fun best x =>
      match best with
      | none => some x
      | some b => if b.seqno < x.seqno then some x else some b) none

/-- The LSM tree of one partition.  Modelled from the spec: the collection
of applied records; lookups at a snapshot seqno `S` return the highest
version with seqno ≤ S (spec section 3, "Memtable"; invariant I2). -/
abbrev Tree := List InternalValue

/-- The highest version of `key` visible at snapshot seqno `instant`. -/
def Tree.latestVisible (tree : Tree) (instant : Nat) (key : Bytes) :
    Option InternalValue :=
  (tree.filter (fun x => x.userKey == key && decide (x.seqno ≤ instant))).foldl
    (fun best x =>
      match best with
      | none => some x
      | some b => if b.seqno < x.seqno then some x else some b) none

/-- `tree.snapshot_at(instant).get(key)`: the value of the highest visible
version; a tombstone hides the key. -/
def Tree.snapshotGet (tree : Tree) (instant : Nat) (key : Bytes) :
    Option Bytes :=
  match tree.latestVisible instant key with
  | none => none
  | some item => if item.is_tombstone then none else some item.value

/-- `tree.snapshot_at(instant).contains_key(key)`. -/
def Tree.snapshotContainsKey (tree : Tree) (instant : Nat) (key : Bytes) :
    Bool :=
  (tree.snapshotGet instant key).isSome

/-- A partition name. -/
abbrev PartitionName := Bytes

/-- The keyspace, for the purposes of the transaction layer: each named
partition's tree. -/
abbrev Keyspace := List (PartitionName × Tree)

/-- The tree of a named partition (an unknown partition reads as empty). -/
def Keyspace.treeOf (ks : Keyspace) (p : PartitionName) : Tree :=
  match ks.find? (fun e => e.1 == p) with
  | some e => e.2
  | none => []

/-- `ignore_tombstone_value` of `write_tx.rs` (lines 16-22). -/
def ignore_tombstone_value (item : InternalValue) : Option InternalValue :=
  if item.is_tombstone then none else some item

/-- `WriteTransaction` state (`write_tx.rs`): the keyspace handle, the
per-partition staging memtables, and the snapshot nonce instant.  The
`tx_lock` guard and durability override have no bearing on the claims about
reads and staging and are omitted. -/
structure WriteTransaction where
  keyspace : Keyspace
  memtables : List (PartitionName × Memtable)
  nonce : Nat
deriving DecidableEq

/-- `self.memtables.get(&partition.inner.name)`. -/
def WriteTransaction.memtableOf (tx : WriteTransaction) (p : PartitionName) :
    Option Memtable :=
  (tx.memtables.find? (fun e => e.1 == p)).map (fun e => e.2)

/-- `self.memtables.entry(name).or_default().insert(item)`: inserts a staged
record into the partition's staging memtable, creating it lazily. -/
def insertStaged (mts : List (PartitionName × Memtable)) (p : PartitionName)
    (item : InternalValue) : List (PartitionName × Memtable) :=
  match mts with
  | [] => [(p, Memtable.insert [] item)]
  | e :: rest =>
    if e.1 == p then (e.1, e.2.insert item) :: rest
    else e :: insertStaged rest p item

/-- `WriteTransaction::new` (`write_tx.rs` lines 42-54): empty staging. -/
def WriteTransaction.new (ks : Keyspace) (nonce : Nat) : WriteTransaction :=
  { keyspace := ks, memtables := [], nonce := nonce }

/-- `WriteTransaction::insert` (`write_tx.rs` lines 635-652): stages a value
record under the sentinel seqno `SeqNo::MAX`. -/
def WriteTransaction.insert (tx : WriteTransaction) (p : PartitionName)
    (key value : Bytes) : WriteTransaction :=
  { tx with memtables :=
      insertStaged tx.memtables p ⟨key, seqnoMax, ValueType.value, value⟩ }

/-- `WriteTransaction::remove` (`write_tx.rs` lines 688-698): stages a
tombstone (empty value) under the sentinel seqno `SeqNo::MAX`. -/
def WriteTransaction.remove (tx : WriteTransaction) (p : PartitionName)
    (key : Bytes) : WriteTransaction :=
  { tx with memtables :=
      insertStaged tx.memtables p ⟨key, seqnoMax, ValueType.tombstone, []⟩ }

/-- `WriteTransaction::get` (`write_tx.rs` lines 278-294): the staging
memtable is consulted first; a staged tombstone hides the key
(`ignore_tombstone_value`); otherwise fall back to the tree snapshot at
`nonce.instant`. -/
def WriteTransaction.get (tx : WriteTransaction) (p : PartitionName)
    (key : Bytes) : Option Bytes :=
  match tx.memtableOf p with
  | some mt =>
    match mt.get key none with
    | some item => (ignore_tombstone_value item).map (fun x => x.value)
    | none => (tx.keyspace.treeOf p).snapshotGet tx.nonce key
  | none => (tx.keyspace.treeOf p).snapshotGet tx.nonce key

/-- `WriteTransaction::contains_key` (`write_tx.rs` lines 327-343). -/
def WriteTransaction.contains_key (tx : WriteTransaction) (p : PartitionName)
    (key : Bytes) : Bool :=
  match tx.memtableOf p with
  | some mt =>
    match mt.get key none with
    | some item => !item.is_tombstone
    | none => (tx.keyspace.treeOf p).snapshotContainsKey tx.nonce key
  | none => (tx.keyspace.treeOf p).snapshotContainsKey tx.nonce key

/-- The staged record, if any, for `key` in partition `p`: exactly the
lookup the read path performs on the staging memtable. -/
def WriteTransaction.stagedRecord (tx : WriteTransaction) (p : PartitionName)
    (key : Bytes) : Option InternalValue :=
  match tx.memtableOf p with
  | some mt => mt.get key none
  | none => none

/-- C3 -- For every write transaction and key, `get` (and `contains_key`)
consults the partition's staging memtable first: a staged `Value` is
returned, a staged `Tombstone` yields "not found", and only in the absence
of a staged record does the read fall back to the tree snapshot at the
transaction's nonce instant. -/
theorem write_tx_get_consults_staging_first (tx : WriteTransaction)
    (p : PartitionName) (key : Bytes) :
    (∀ item, tx.stagedRecord p key = some item →
      tx.get p key = (if item.is_tombstone then none else some item.value) ∧
      tx.contains_key p key = !item.is_tombstone) ∧
    (tx.stagedRecord p key = none →
      tx.get p key = (tx.keyspace.treeOf p).snapshotGet tx.nonce key ∧
      tx.contains_key p key
        = (tx.keyspace.treeOf p).snapshotContainsKey tx.nonce key) := by
  unfold WriteTransaction.stagedRecord WriteTransaction.get
    WriteTransaction.contains_key ignore_tombstone_value
  constructor
  · intro item hstaged
    cases hmt : tx.memtableOf p with
    | none => simp [hmt] at hstaged
    | some mt =>
      rw [hmt] at hstaged
      simp only [] at hstaged
      simp only [hmt, hstaged]
      by_cases ht : item.is_tombstone <;> simp [ht]
  · intro hstaged
    cases hmt : tx.memtableOf p with
    | none => simp [hmt]
    | some mt =>
      rw [hmt] at hstaged
      simp only [] at hstaged
      simp [hmt, hstaged]

/-- Witness for C3: a transaction with a staged value for key `"a"` in
partition `"default"` returns it from `get`, while an unstaged key falls
through to the (empty) snapshot. -/
theorem write_tx_get_consults_staging_first_witness :
    ((WriteTransaction.new [] 0).insert [100] [97] [120]).get [100] [97]
        = some [120] ∧
    (WriteTransaction.new [] 0).get [100] [97] = none := by
  constructor
  · have h := (write_tx_get_consults_staging_first
      (((WriteTransaction.new [] 0).insert [100] [97] [120])) [100] [97]).1
      ⟨[97], seqnoMax, ValueType.value, [120]⟩ (by decide)
    exact h.1.trans (by decide)
  · have h := (write_tx_get_consults_staging_first
      (WriteTransaction.new [] 0) [100] [97]).2 (by decide)
    exact h.1.trans (by decide)

/-- `WriteTransaction::update_fetch` (`write_tx.rs` lines 151-170): reads the
current value, applies `f`, stages an insert when the new value is `Some`
and differs from the previous one, stages a remove when the new value is
`None` and a previous value existed, and returns the new value. -/
def WriteTransaction.update_fetch (tx : WriteTransaction) (p : PartitionName)
    (key : Bytes) (f : Option Bytes → Option Bytes) :
    WriteTransaction × Option Bytes :=
  let prev := tx.get p key
  let updated := f prev
  let tx2 :=
    match updated with
    | some v => if updated ≠ prev then tx.insert p key v else tx
    | none => if prev.isSome then tx.remove p key else tx
  (tx2, updated)

/-- `WriteTransaction::fetch_update` (`write_tx.rs` lines 224-243): same
staging behaviour as `update_fetch`, but returns the previous value. -/
def WriteTransaction.fetch_update (tx : WriteTransaction) (p : PartitionName)
    (key : Bytes) (f : Option Bytes → Option Bytes) :
    WriteTransaction × Option Bytes :=
  let prev := tx.get p key
  let updated := f prev
  let tx2 :=
    match updated with
    | some v => if updated ≠ prev then tx.insert p key v else tx
    | none => if prev.isSome then tx.remove p key else tx
  (tx2, prev)

/-- `WriteTransaction::take` (`write_tx.rs` lines 91-97): literally
`self.fetch_update(partition, key, |_| None)`. -/
def WriteTransaction.take (tx : WriteTransaction) (p : PartitionName)
    (key : Bytes) : WriteTransaction × Option Bytes :=
  tx.fetch_update p key (fun _ => none)

/-- The behaviour claimed for `take`, written from the claim's words:
return the previous value of the key (`none` if absent), stage a remove
exactly when the key had a value, stage nothing when it was absent. -/
def WriteTransaction.takeSpec (tx : WriteTransaction) (p : PartitionName)
    (key : Bytes) : WriteTransaction × Option Bytes :=
  let prev := tx.get p key
  (if prev.isSome then tx.remove p key else tx, prev)

/-- Well-formed staging: every staged record carries the sentinel seqno
`SeqNo::MAX`.  True of every transaction built through the API, since
`insert` and `remove` only ever stage at `SeqNo::MAX`. -/
def WriteTransaction.WFStaging (tx : WriteTransaction) : Prop :=
  ∀ e ∈ tx.memtables, ∀ item ∈ e.2, item.seqno = seqnoMax

instance (tx : WriteTransaction) : Decidable tx.WFStaging := by
  unfold WriteTransaction.WFStaging
  infer_instance

theorem Memtable.get_insert_eq (mt : Memtable) (item : InternalValue)
    (hwf : ∀ x ∈ mt, x.seqno = item.seqno) :
    (mt.insert item).get item.userKey none = some item := by
  unfold Memtable.insert Memtable.get
  have hnil :
      (mt.filter
        (fun x => !(x.userKey == item.userKey && x.seqno == item.seqno))).filter
        (fun x => x.userKey == item.userKey) = [] := by
    rw [List.filter_filter]
    apply List.filter_eq_nil_iff.mpr
    intro x hx
    have hs : x.seqno = item.seqno := hwf x hx
    by_cases hk : x.userKey == item.userKey
    · simp [hk, hs]
    · simp [hk]
  simp only [List.filter_cons, beq_self_eq_true, Bool.and_true, if_pos]
  rw [hnil]
  rfl

theorem stagedRecord_insertStaged (mts : List (PartitionName × Memtable))
    (p : PartitionName) (item : InternalValue) :
    ((insertStaged mts p item).find? (fun e => e.1 == p)).map (fun e => e.2)
      = some (match (mts.find? (fun e => e.1 == p)).map (fun e => e.2) with
              | some mt => mt.insert item
              | none => Memtable.insert [] item) := by
  induction mts with
  | nil =>
    rw [show insertStaged [] p item = [(p, Memtable.insert [] item)] from rfl,
      List.find?_cons_of_pos _ (by simp)]
    rfl
  | cons e rest ih =>
    by_cases hp : (e.1 == p) = true
    · rw [show insertStaged (e :: rest) p item
          = (e.1, e.2.insert item) :: rest from by simp [insertStaged, hp],
        List.find?_cons_of_pos _ (by simpa using hp),
        List.find?_cons_of_pos _ (by simpa using hp)]
      rfl
    · rw [show insertStaged (e :: rest) p item
          = e :: insertStaged rest p item from by simp [insertStaged, hp],
        List.find?_cons_of_neg _ (by simpa using hp),
        List.find?_cons_of_neg _ (by simpa using hp)]
      exact ih

/-- Shared argument: after staging `item` (with the sentinel seqno) into a
well-formed transaction, the staging lookup returns exactly `item`. -/
theorem stagedRecord_after_stage (tx : WriteTransaction) (p : PartitionName)
    (item : InternalValue) (hwf : tx.WFStaging)
    (hseq : item.seqno = seqnoMax) :
    (WriteTransaction.mk tx.keyspace (insertStaged tx.memtables p item)
      tx.nonce).stagedRecord p item.userKey = some item := by
  have h := stagedRecord_insertStaged tx.memtables p item
  simp only [WriteTransaction.stagedRecord, WriteTransaction.memtableOf, h]
  cases hfind : (tx.memtables.find? (fun e => e.1 == p)).map (fun e => e.2) with
  | none =>
    exact Memtable.get_insert_eq [] _ (by intro x hx; cases hx)
  | some mt =>
    apply Memtable.get_insert_eq
    intro x hx
    obtain ⟨e, he, he2⟩ : ∃ e ∈ tx.memtables, e.2 = mt := by
      obtain ⟨e, hfind', rfl⟩ : ∃ e, tx.memtables.find? (fun e => e.1 == p)
          = some e ∧ e.2 = mt := by
        cases hf : tx.memtables.find? (fun e => e.1 == p) with
        | none => rw [hf] at hfind; cases hfind
        | some e => rw [hf] at hfind; exact ⟨e, rfl, by injection hfind⟩
      exact ⟨e, List.mem_of_find?_eq_some hfind', rfl⟩
    rw [hseq]
    exact hwf e he x (he2 ▸ hx)

/-- After `tx.insert p k v`, the staged record for `(p, k)` is the value
record at the sentinel seqno. -/
theorem stagedRecord_after_insert (tx : WriteTransaction) (p : PartitionName)
    (k v : Bytes) (hwf : tx.WFStaging) :
    (tx.insert p k v).stagedRecord p k
      = some ⟨k, seqnoMax, ValueType.value, v⟩ :=
  stagedRecord_after_stage tx p ⟨k, seqnoMax, ValueType.value, v⟩ hwf rfl

/-- After `tx.remove p k`, the staged record for `(p, k)` is a tombstone at
the sentinel seqno. -/
theorem stagedRecord_after_remove (tx : WriteTransaction) (p : PartitionName)
    (k : Bytes) (hwf : tx.WFStaging) :
    (tx.remove p k).stagedRecord p k
      = some ⟨k, seqnoMax, ValueType.tombstone, []⟩ :=
  stagedRecord_after_stage tx p ⟨k, seqnoMax, ValueType.tombstone, []⟩ hwf rfl

/-- C5 -- `fetch_update(p, k, f)` returns the previous value and
`update_fetch(p, k, f)` returns the new value `f(prev)`; both stage the same
transaction state: an insert of `v` when `f(prev) = Some v` differs from
`prev`, a remove (tombstone) when `f(prev) = None` and `prev` existed, and
no staging write at all when `f(prev)` equals `prev`. -/
theorem tx_fetch_update_update_fetch_spec (tx : WriteTransaction)
    (p : PartitionName) (key : Bytes) (f : Option Bytes → Option Bytes)
    (hwf : tx.WFStaging) :
    (tx.fetch_update p key f).2 = tx.get p key ∧
    (tx.update_fetch p key f).2 = f (tx.get p key) ∧
    (tx.fetch_update p key f).1 = (tx.update_fetch p key f).1 ∧
    (f (tx.get p key) = tx.get p key → (tx.update_fetch p key f).1 = tx) ∧
    (∀ v, f (tx.get p key) = some v → f (tx.get p key) ≠ tx.get p key →
      (tx.update_fetch p key f).1 = tx.insert p key v ∧
      ((tx.update_fetch p key f).1).stagedRecord p key
        = some ⟨key, seqnoMax, ValueType.value, v⟩) ∧
    (f (tx.get p key) = none → (tx.get p key).isSome →
      (tx.update_fetch p key f).1 = tx.remove p key ∧
      ((tx.update_fetch p key f).1).stagedRecord p key
        = some ⟨key, seqnoMax, ValueType.tombstone, []⟩) := by
  refine ⟨rfl, rfl, rfl, ?_, ?_, ?_⟩
  · intro heq
    show (match f (tx.get p key) with
      | some v => if f (tx.get p key) ≠ tx.get p key
                  then tx.insert p key v else tx
      | none => if (tx.get p key).isSome then tx.remove p key else tx) = tx
    cases hnw : f (tx.get p key) with
    | none =>
      rw [hnw] at heq
      rw [← heq]
      simp
    | some v =>
      rw [hnw] at heq
      simp [heq]
  · intro v hv hne
    rw [hv] at hne
    show ((match f (tx.get p key) with
      | some v => if f (tx.get p key) ≠ tx.get p key
                  then tx.insert p key v else tx
      | none => if (tx.get p key).isSome then tx.remove p key else tx)
        = tx.insert p key v) ∧
      WriteTransaction.stagedRecord (match f (tx.get p key) with
      | some v => if f (tx.get p key) ≠ tx.get p key
                  then tx.insert p key v else tx
      | none => if (tx.get p key).isSome then tx.remove p key
                else tx) p key
        = some ⟨key, seqnoMax, ValueType.value, v⟩
    rw [hv]
    simp only [ne_eq, hne, not_false_iff, ite_true]
    exact ⟨trivial, stagedRecord_after_insert tx p key v hwf⟩
  · intro hnone hsome
    show ((match f (tx.get p key) with
      | some v => if f (tx.get p key) ≠ tx.get p key
                  then tx.insert p key v else tx
      | none => if (tx.get p key).isSome then tx.remove p key else tx)
        = tx.remove p key) ∧
      WriteTransaction.stagedRecord (match f (tx.get p key) with
      | some v => if f (tx.get p key) ≠ tx.get p key
                  then tx.insert p key v else tx
      | none => if (tx.get p key).isSome then tx.remove p key
                else tx) p key
        = some ⟨key, seqnoMax, ValueType.tombstone, []⟩
    rw [hnone]
    simp only [hsome, ite_true]
    exact ⟨trivial, stagedRecord_after_remove tx p key hwf⟩

/-- Witness for C5: on an empty keyspace with `f = const (some [5])`, the
previous value is `none`, `update_fetch` returns `some [5]`, and the staged
record is the value record for `[5]` at the sentinel seqno. -/
theorem tx_fetch_update_update_fetch_spec_witness :
    ((WriteTransaction.new [] 0).fetch_update [100] [97]
        (fun _ => some [5])).2 = none ∧
    ((WriteTransaction.new [] 0).update_fetch [100] [97]
        (fun _ => some [5])).1.stagedRecord [100] [97]
      = some ⟨[97], seqnoMax, ValueType.value, [5]⟩ := by
  have h := tx_fetch_update_update_fetch_spec (WriteTransaction.new [] 0)
    [100] [97] (fun _ => some [5]) (by decide)
  refine ⟨h.1.trans (by decide), ?_⟩
  exact (h.2.2.2.2.1 [5] (by decide) (by decide)).2

/-- C10 -- `take(p, k)` is `fetch_update(p, k, |_| None)`: it returns the
previous value of the key (`none` if absent), stages a remove exactly when
the key had a value, and stages nothing when the key was absent. -/
theorem tx_take_refines_fetch_update_const_none (tx : WriteTransaction)
    (p : PartitionName) (key : Bytes) :
    tx.take p key = tx.fetch_update p key (fun _ => none) ∧
    tx.take p key = tx.takeSpec p key := by
  refine ⟨rfl, ?_⟩
  unfold WriteTransaction.take WriteTransaction.fetch_update
    WriteTransaction.takeSpec
  cases hprev : tx.get p key <;> simp [hprev]

/-- Strict byte-lexicographic order on byte strings. -/
def lexLt : Bytes → Bytes → Bool
  | [], [] => false
  | [], _ :: _ => true
  | _ :: _, [] => false
  | a :: as, b :: bs =>
    if a < b then true else if b < a then false else lexLt as bs

/-- Insert a key into a lex-sorted key list. -/
def insertSortedKey (k : Bytes) : List Bytes → List Bytes
  | [] => [k]
  | x :: xs => if lexLt k x then k :: x :: xs else x :: insertSortedKey k xs

/-- Sort a key list into byte-lex ascending order (insertion sort). -/
def sortKeys (l : List Bytes) : List Bytes :=
  l.foldr insertSortedKey []

/-- The merged effective entry for one key: the staging memtable (whose
records carry the sentinel seqno and therefore dominate every tree version)
wins; a tombstone on either side hides the key (spec section 4.G step 3 and
section 6.3). -/
def mergedEntry (tree : Tree) (instant : Nat) (extra : Option Memtable)
    (k : Bytes) : Option (Bytes × Bytes) :=
  match extra.bind (fun mt => mt.get k none) with
  | some item => if item.is_tombstone then none else some (k, item.value)
  | none => (tree.snapshotGet instant k).map (fun v => (k, v))

/-- `tree.iter_with_seqno(instant, extra)` of the tree primitive, modelled
from the spec (section 6.3): iterate, in byte-lex order, the keys visible at
`instant` merged with an optional additional memtable; tombstones hide
underlying values. -/
def iter_with_seqno (tree : Tree) (instant : Nat) (extra : Option Memtable) :
    List (Bytes × Bytes) :=
  let visKeys := (tree.filter (fun x => decide (x.seqno ≤ instant))).map
    (fun x => x.userKey)
  let extraKeys :=
    match extra with
    | some mt => mt.map (fun x => x.userKey)
    | none => []
  (sortKeys (visKeys ++ extraKeys).dedup).filterMap
    (mergedEntry tree instant extra)

/-- `tree.keys_with_seqno(instant, extra)` (spec section 6.3). -/
def keys_with_seqno (tree : Tree) (instant : Nat) (extra : Option Memtable) :
    List Bytes :=
  (iter_with_seqno tree instant extra).map (fun e => e.1)

/-- `tree.values_with_seqno(instant, extra)` (spec section 6.3). -/
def values_with_seqno (tree : Tree) (instant : Nat)
    (extra : Option Memtable) : List Bytes :=
  (iter_with_seqno tree instant extra).map (fun e => e.2)

/-- `WriteTransaction::iter` (`write_tx.rs` lines 479-491): passes the
partition's staging memtable to the merging iterator. -/
def WriteTransaction.iter (tx : WriteTransaction) (p : PartitionName) :
    List (Bytes × Bytes) :=
  iter_with_seqno (tx.keyspace.treeOf p) tx.nonce (tx.memtableOf p)

/-- `WriteTransaction::keys` (`write_tx.rs` lines 497-506): the code passes
`None` as the additional memtable, not the staging memtable. -/
def WriteTransaction.keys (tx : WriteTransaction) (p : PartitionName) :
    List Bytes :=
  keys_with_seqno (tx.keyspace.treeOf p) tx.nonce none

/-- `WriteTransaction::values` (`write_tx.rs` lines 512-521): the code
passes `None` as the additional memtable, not the staging memtable. -/
def WriteTransaction.values (tx : WriteTransaction) (p : PartitionName) :
    List Bytes :=
  values_with_seqno (tx.keyspace.treeOf p) tx.nonce none

/-- C1 -- the claim states that every iterator of a write transaction
(`iter`, `keys`, `values`, `range`, `prefix`) merges the staging memtable,
so every staged insert is visible.  The code contradicts it: with one
staged insert of key `[97]` in partition `[100]` over an empty tree, `iter`
shows the staged pair but `keys` and `values` (which pass `None` instead of
the staging memtable) see nothing. -/
theorem write_tx_keys_values_skip_staging :
    ((WriteTransaction.new [] 0).insert [100] [97] [120]).iter [100]
        = [([97], [120])] ∧
    ((WriteTransaction.new [] 0).insert [100] [97] [120]).keys [100] = [] ∧
    ((WriteTransaction.new [] 0).insert [100] [97] [120]).values [100]
        = [] := by
  refine ⟨?_, ?_, ?_⟩ <;> rfl

/-- `ReadTransaction` (`read_tx.rs`): a snapshot handle carrying one nonce,
fixed at construction; no operation mutates it. -/
structure ReadTransaction where
  nonce : Nat
deriving DecidableEq

/-- `ReadTransaction::get` (`read_tx.rs` lines 48-59): the tree snapshot at
`nonce.instant`. -/
def ReadTransaction.get (rt : ReadTransaction) (tree : Tree) (key : Bytes) :
    Option Bytes :=
  tree.snapshotGet rt.nonce key

/-- `ReadTransaction::contains_key` (`read_tx.rs` lines 82-93). -/
def ReadTransaction.contains_key (rt : ReadTransaction) (tree : Tree)
    (key : Bytes) : Bool :=
  tree.snapshotContainsKey rt.nonce key

/-- `ReadTransaction::iter` (`read_tx.rs` lines 248-257): iterator at
`nonce.instant` with no additional memtable. -/
def ReadTransaction.iter (rt : ReadTransaction) (tree : Tree) :
    List (Bytes × Bytes) :=
  iter_with_seqno tree rt.nonce none

theorem filter_visible_append_invisible (tree newRecs : Tree) (instant : Nat)
    (hnew : ∀ r ∈ newRecs, instant < r.seqno) :
    (tree ++ newRecs).filter (fun x => decide (x.seqno ≤ instant))
      = tree.filter (fun x => decide (x.seqno ≤ instant)) := by
  rw [List.filter_append]
  have : newRecs.filter (fun x => decide (x.seqno ≤ instant)) = [] := by
    apply List.filter_eq_nil_iff.mpr
    intro r hr
    have := hnew r hr
    simp
    omega
  rw [this, List.append_nil]

theorem latestVisible_append_invisible (tree newRecs : Tree) (instant : Nat)
    (key : Bytes) (hnew : ∀ r ∈ newRecs, instant < r.seqno) :
    (tree ++ newRecs).latestVisible instant key
      = tree.latestVisible instant key := by
  unfold Tree.latestVisible
  rw [List.filter_append]
  have : newRecs.filter
      (fun x => x.userKey == key && decide (x.seqno ≤ instant)) = [] := by
    apply List.filter_eq_nil_iff.mpr
    intro r hr
    have := hnew r hr
    simp
    intro _
    omega
  rw [this, List.append_nil]

theorem snapshotGet_append_invisible (tree newRecs : Tree) (instant : Nat)
    (key : Bytes) (hnew : ∀ r ∈ newRecs, instant < r.seqno) :
    (tree ++ newRecs).snapshotGet instant key
      = tree.snapshotGet instant key := by
  unfold Tree.snapshotGet
  rw [latestVisible_append_invisible tree newRecs instant key hnew]

/-- C4 -- every read of a read transaction is evaluated against the
snapshot seqno fixed at construction; records committed after the
transaction's registration (which, by seqno monotonicity, carry seqnos
strictly above the nonce) never change any result: repeatable read. -/
theorem read_tx_repeatable_read (rt : ReadTransaction) (tree newRecs : Tree)
    (key : Bytes) (hnew : ∀ r ∈ newRecs, rt.nonce < r.seqno) :
    rt.get (tree ++ newRecs) key = rt.get tree key ∧
    rt.contains_key (tree ++ newRecs) key = rt.contains_key tree key ∧
    rt.iter (tree ++ newRecs) = rt.iter tree := by
  have hget : rt.get (tree ++ newRecs) key = rt.get tree key :=
    snapshotGet_append_invisible tree newRecs rt.nonce key hnew
  refine ⟨hget, ?_, ?_⟩
  · unfold ReadTransaction.contains_key Tree.snapshotContainsKey
    rw [snapshotGet_append_invisible tree newRecs rt.nonce key hnew]
  · unfold ReadTransaction.iter iter_with_seqno
    rw [filter_visible_append_invisible tree newRecs rt.nonce hnew]
    apply List.filterMap_congr
    intro k _
    unfold mergedEntry
    rw [snapshotGet_append_invisible tree newRecs rt.nonce k hnew]

/-- Witness for C4: with nonce 1 and a committed record at seqno 1, a
record appended at seqno 2 is invisible, and `get` still returns the
original value. -/
theorem read_tx_repeatable_read_witness :
    (∀ r ∈ [InternalValue.mk [97] 2 ValueType.value [121]],
      (ReadTransaction.mk 1).nonce < r.seqno) ∧
    (ReadTransaction.mk 1).get
      ([⟨[97], 1, ValueType.value, [120]⟩]
        ++ [⟨[97], 2, ValueType.value, [121]⟩]) [97]
      = (ReadTransaction.mk 1).get [⟨[97], 1, ValueType.value, [120]⟩] [97] ∧
    (ReadTransaction.mk 1).get [⟨[97], 1, ValueType.value, [120]⟩] [97]
      = some [120] := by
  refine ⟨by decide, ?_, by decide⟩
  exact (read_tx_repeatable_read (ReadTransaction.mk 1)
    [⟨[97], 1, ValueType.value, [120]⟩] [⟨[97], 2, ValueType.value, [121]⟩]
    [97] (by decide)).1

/-- A staging operation of a write transaction. -/
inductive TxOp where
  | insert (p : PartitionName) (key value : Bytes)
  | remove (p : PartitionName) (key : Bytes)

/-- Apply one staging operation. -/
def WriteTransaction.applyOp (tx : WriteTransaction) : TxOp →
    WriteTransaction
  | TxOp.insert p k v => tx.insert p k v
  | TxOp.remove p k => tx.remove p k

/-- Apply a sequence of staging operations. -/
def WriteTransaction.applyOps (tx : WriteTransaction) (ops : List TxOp) :
    WriteTransaction :=
  ops.foldl WriteTransaction.applyOp tx

/-- `WriteTransaction::rollback` (`write_tx.rs` line 742) and plain drop:
the transaction is consumed, nothing is journaled or applied; the keyspace
is exactly the one the transaction's handle referenced. -/
def WriteTransaction.rollback (tx : WriteTransaction) : Keyspace :=
  tx.keyspace

/-- `partition.get` outside any transaction: the latest version, no
snapshot bound. -/
def Tree.latestGet (tree : Tree) (key : Bytes) : Option Bytes :=
  match (tree.filter (fun x => x.userKey == key)).foldl
    (fun best x =>
      match best with
      | none => some x
      | some b => if b.seqno < x.seqno then some x else some b) none with
  | none => none
  | some item => if item.is_tombstone then none else some item.value

/-- The value of `(p, k)` observable outside any transaction. -/
def Keyspace.outsideGet (ks : Keyspace) (p : PartitionName) (k : Bytes) :
    Option Bytes :=
  (ks.treeOf p).latestGet k

theorem applyOps_keyspace (ops : List TxOp) (tx : WriteTransaction) :
    (tx.applyOps ops).keyspace = tx.keyspace := by
  induction ops generalizing tx with
  | nil => rfl
  | cons op rest ih =>
    cases op with
    | insert p k v => exact ih (tx.insert p k v)
    | remove p k => exact ih (tx.remove p k)

/-- C7 -- dropping or rolling back a write transaction discards all staged
writes without journaling or applying them: staging operations never touch
the keyspace, so after the drop every partition and key reads outside the
transaction exactly as before the transaction began. -/
theorem write_tx_rollback_discards_staging (ks : Keyspace) (nonce : Nat)
    (ops : List TxOp) (p : PartitionName) (k : Bytes) :
    ((WriteTransaction.new ks nonce).applyOps ops).rollback = ks ∧
    Keyspace.outsideGet
        (((WriteTransaction.new ks nonce).applyOps ops).rollback) p k
      = Keyspace.outsideGet ks p k := by
  have h : ((WriteTransaction.new ks nonce).applyOps ops).rollback = ks := by
    unfold WriteTransaction.rollback
    rw [applyOps_keyspace]
    rfl
  exact ⟨h, by rw [h]⟩

/-- `PersistMode` (`Buffer | SyncData | SyncAll`, spec section 6.4;
`journal/writer.rs` is not in the repository snapshot). -/
inductive PersistMode where
  | buffer
  | syncData
  | syncAll
deriving DecidableEq

/-- One journal shard, observationally: its `should_sync` flag and the log
of flush calls issued to its writer.  Modelled from the spec for the shard
writer side (`journal/shard.rs` and `journal/writer.rs` are not in the
snapshot): a writer flush is recorded as an event in `flushLog`. -/
structure JournalShard where
  should_sync : Bool
  flushLog : List PersistMode
deriving DecidableEq

/-- The sharded journal (`journal/mod.rs`): shard `i` of the `Sharded`
collection is position `i` of the list. -/
structure Journal where
  shards : List JournalShard
deriving DecidableEq

/-- `Journal::get_writer` (`mod.rs` lines 120-124): lock one shard (the
selected index is made explicit; the `Sharded` selection strategy is
fairness only) and set its `should_sync` flag. -/
def Journal.get_writer (j : Journal) (i : Nat) : Journal :=
  match j.shards[i]? with
  | some sh => { shards := j.shards.set i { sh with should_sync := true } }
  | none => j

/-- The journal write path: a batch write locks one shard via `get_writer`
(which marks it dirty) and then appends through the shard writer.  The
observable flag effect of any `write_batch` is exactly `get_writer`'s. -/
def Journal.write_batch (j : Journal) (i : Nat) : Journal :=
  j.get_writer i

/-- The effect of `Journal::flush` on one visited shard (`mod.rs` lines
128-136): if `should_sync` is set, the shard writer's flush is invoked and
the flag is cleared when the mode is not `Buffer`; otherwise the shard is
skipped. -/
def flushTransform (mode : PersistMode) (sh : JournalShard) : JournalShard :=
  if sh.should_sync then
    { should_sync := mode == PersistMode.buffer,
      flushLog := sh.flushLog ++ [mode] }
  else sh

/-- `Journal::flush` over the shard list, visiting shards in index order
(`full_lock` locks shards `0..N` in order, spec section 4.B); returns the
updated shards and the indices whose writer flush was invoked. -/
def flushShards (mode : PersistMode) : Nat → List JournalShard →
    List JournalShard × List Nat
  | _, [] => ([], [])
  | i, sh :: rest =>
    if sh.should_sync then
      (flushTransform mode sh :: (flushShards mode (i + 1) rest).1,
       i :: (flushShards mode (i + 1) rest).2)
    else
      (sh :: (flushShards mode (i + 1) rest).1,
       (flushShards mode (i + 1) rest).2)

/-- `Journal::flush` (`mod.rs` lines 127-138). -/
def Journal.flush (j : Journal) (mode : PersistMode) :
    Journal × List Nat :=
  ((Journal.mk (flushShards mode 0 j.shards).1), (flushShards mode 0 j.shards).2)

/-- Whether shard `n` of a shard list has its `should_sync` flag set. -/
def shardDirtyL (shards : List JournalShard) (n : Nat) : Bool :=
  match shards[n]? with
  | some sh => sh.should_sync
  | none => false

theorem flushShards_fst (mode : PersistMode) (shards : List JournalShard) :
    ∀ (i n : Nat), ((flushShards mode i shards).1)[n]?
      = (shards[n]?).map (flushTransform mode) := by
  induction shards with
  | nil => intro i n; cases n <;> rfl
  | cons sh rest ih =>
    intro i n
    by_cases hd : sh.should_sync
    · simp only [flushShards, hd, if_true]
      cases n with
      | zero => simp
      | succ n => simpa using ih (i + 1) n
    · simp only [flushShards, hd, Bool.false_eq_true, if_false]
      cases n with
      | zero =>
        have heq : flushTransform mode sh = sh := by
          unfold flushTransform
          simp [hd]
        simp [heq]
      | succ n => simpa using ih (i + 1) n

theorem flushShards_snd (mode : PersistMode) (shards : List JournalShard) :
    ∀ i, (flushShards mode i shards).2
      = ((List.range shards.length).filter (shardDirtyL shards)).map
          (fun n => i + n) := by
  induction shards with
  | nil => intro i; rfl
  | cons sh rest ih =>
    intro i
    have hdirtysucc : shardDirtyL (sh :: rest) ∘ Nat.succ = shardDirtyL rest := by
      funext n
      simp [shardDirtyL]
    have hmapshift : ∀ l : List Nat,
        (l.map Nat.succ).map (fun n => i + n)
          = l.map (fun n => (i + 1) + n) := by
      intro l
      rw [List.map_map]
      apply List.map_congr_left
      intro a _
      simp only [Function.comp]
      omega
    by_cases hd : sh.should_sync
    · have h0 : shardDirtyL (sh :: rest) 0 = true := by
        simpa [shardDirtyL] using hd
      simp only [flushShards, hd, if_true]
      rw [ih (i + 1), List.length_cons, List.range_succ_eq_map,
        List.filter_cons, h0]
      simp only [if_true]
      rw [List.filter_map, hdirtysucc, List.map_cons, hmapshift]
      simp
    · have h0 : shardDirtyL (sh :: rest) 0 = false := by
        simpa [shardDirtyL] using hd
      simp only [flushShards, hd, Bool.false_eq_true, if_false]
      rw [ih (i + 1), List.length_cons, List.range_succ_eq_map,
        List.filter_cons, h0]
      simp only [Bool.false_eq_true, if_false]
      rw [List.filter_map, hdirtysucc, hmapshift]

/-- C6 -- after any `write_batch` the selected shard's `should_sync` flag is
true; `flush(mode)` visits shards in index order `0..N`, invokes the shard
writer's flush exactly on the shards whose flag is set (skipping idle
shards), and the flag afterwards is the old flag conjoined with
`mode = Buffer` (i.e. cleared exactly when `mode ≠ Buffer`). -/
theorem journal_flush_shard_protocol (j : Journal) (mode : PersistMode)
    (i : Nat) (hi : i < j.shards.length) :
    ((j.write_batch i).shards[i]?).map (fun sh => sh.should_sync)
      = some true ∧
    (j.flush mode).2
      = (List.range j.shards.length).filter (shardDirtyL j.shards) ∧
    ((j.flush mode).1.shards[i]?
      = (j.shards[i]?).map (fun sh =>
          JournalShard.mk (sh.should_sync && (mode == PersistMode.buffer))
            (sh.flushLog ++ if sh.should_sync then [mode] else []))) := by
  refine ⟨?_, ?_, ?_⟩
  · unfold Journal.write_batch Journal.get_writer
    cases hsh : j.shards[i]? with
    | none =>
      exfalso
      rw [List.getElem?_eq_none_iff] at hsh
      omega
    | some sh =>
      simp [List.getElem?_set_self, hi]
  · unfold Journal.flush
    rw [flushShards_snd mode j.shards 0]
    simp
  · unfold Journal.flush
    rw [flushShards_fst mode j.shards 0 i]
    cases hsh : j.shards[i]? with
    | none => rfl
    | some sh =>
      unfold flushTransform
      by_cases hd : sh.should_sync
      · simp [hd]
      · obtain ⟨ss, fl⟩ := sh
        simp only [] at hd
        simp at hd
        simp [hd]

/-- Witness for C6: a two-shard journal with shard 0 dirty and shard 1
idle; a write to shard 1 marks it; `flush(SyncData)` flushes exactly shard
0 and clears its flag. -/
theorem journal_flush_shard_protocol_witness :
    ((Journal.mk [⟨true, []⟩, ⟨false, []⟩]).write_batch 1).shards.map
        (fun sh => sh.should_sync) = [true, true] ∧
    ((Journal.mk [⟨true, []⟩, ⟨false, []⟩]).flush PersistMode.syncData).2
      = [0] ∧
    ((Journal.mk [⟨true, []⟩, ⟨false, []⟩]).flush
        PersistMode.syncData).1.shards[0]?
      = some ⟨false, [PersistMode.syncData]⟩ := by
  have h := journal_flush_shard_protocol
    (Journal.mk [⟨true, []⟩, ⟨false, []⟩]) PersistMode.syncData 0 (by decide)
  refine ⟨by decide, h.2.1.trans (by decide), h.2.2.trans (by decide)⟩

/-- A partition handle, as the compaction layer sees it: an identity plus
the identity of its configured compaction strategy
(`item.config.compaction_strategy`). -/
structure PartitionHandle where
  id : Nat
  strategyId : Nat
deriving DecidableEq

/-- `CompactionManagerInner` (`fjall/src/compaction/manager.rs`): an
unbounded FIFO queue (`VecDeque`) of partition handles and a counting
semaphore. -/
structure CompactionManager where
  partitions : List PartitionHandle
  semaphore : Nat
deriving DecidableEq

/-- `CompactionManager::notify` (`manager.rs` lines 38-42): push to the
back of the queue; semaphore up. -/
def CompactionManager.notify (m : CompactionManager) (h : PartitionHandle) :
    CompactionManager :=
  { partitions := m.partitions ++ [h], semaphore := m.semaphore + 1 }

/-- `CompactionManager::pop` (`manager.rs` lines 44-47): non-blocking
`pop_front`; `none` when empty.  (`wait_for`, not `pop`, performs the
semaphore acquire.) -/
def CompactionManager.pop (m : CompactionManager) :
    Option PartitionHandle × CompactionManager :=
  match m.partitions with
  | [] => (none, m)
  | x :: rest => (some x, { m with partitions := rest })

/-- One client interaction with the compaction manager. -/
inductive QueueOp where
  | notify (h : PartitionHandle)
  | pop

/-- Run a sequence of `notify`/`pop` calls, collecting every `pop` result. -/
def runQueueOps : List QueueOp → CompactionManager →
    CompactionManager × List (Option PartitionHandle)
  | [], m => (m, [])
  | QueueOp.notify h :: rest, m => runQueueOps rest (m.notify h)
  | QueueOp.pop :: rest, m =>
    let r := m.pop
    let s := runQueueOps rest r.2
    (s.1, r.1 :: s.2)

/-- The handles passed to `notify`, in call order. -/
def notifiedOf : List QueueOp → List PartitionHandle
  | [] => []
  | QueueOp.notify h :: rest => h :: notifiedOf rest
  | QueueOp.pop :: rest => notifiedOf rest

theorem runQueueOps_fifo_inv (ops : List QueueOp) :
    ∀ m : CompactionManager,
      ((runQueueOps ops m).2.filterMap id)
          ++ (runQueueOps ops m).1.partitions
        = m.partitions ++ notifiedOf ops := by
  induction ops with
  | nil => intro m; simp [runQueueOps, notifiedOf]
  | cons op rest ih =>
    intro m
    cases op with
    | notify h =>
      have := ih (m.notify h)
      simpa [runQueueOps, notifiedOf, CompactionManager.notify] using this
    | pop =>
      cases hq : m.partitions with
      | nil =>
        have := ih m
        simp only [runQueueOps, CompactionManager.pop, hq, notifiedOf]
        simpa [hq] using this
      | cons x xs =>
        have := ih { m with partitions := xs }
        simp only [runQueueOps, CompactionManager.pop, hq, notifiedOf]
        simp only [List.filterMap_cons, id]
        rw [List.cons_append, this]
        simp

/-- C8 -- the compaction queue is FIFO with duplicates allowed: starting
from the empty queue, the sequence of successful `pop` results followed by
the remaining queue is exactly the sequence of `notify` arguments, in call
order and with repetitions; and `pop` on an empty queue returns `none`
without changing the state. -/
theorem compaction_queue_fifo (ops : List QueueOp) :
    (((runQueueOps ops (CompactionManager.mk [] 0)).2.filterMap id)
        ++ (runQueueOps ops (CompactionManager.mk [] 0)).1.partitions
      = notifiedOf ops) ∧
    (∀ s : Nat, (CompactionManager.mk [] s).pop
      = (none, CompactionManager.mk [] s)) := by
  refine ⟨?_, fun s => rfl⟩
  simpa using runQueueOps_fifo_inv ops (CompactionManager.mk [] 0)

/-- The snapshot tracker.  Modelled from the spec (section 4.D;
`snapshot_tracker.rs` is not in the repository snapshot): a mapping
`instant → active_count` with nonzero counts only, plus the latest
allocated seqno. -/
structure SnapshotTracker where
  entries : List (Nat × Nat)
  latestSeqno : Nat
deriving DecidableEq

/-- Modelled from the spec: `get_seqno_safe_to_gc()` is `min(keys)` when
the map is non-empty, else `latest_allocated_seqno + 1` (section 4.D). -/
def SnapshotTracker.get_seqno_safe_to_gc (t : SnapshotTracker) : Nat :=
  match t.entries.map (fun e => e.1) with
  | [] => t.latestSeqno + 1
  | k :: ks => ks.foldl Nat.min k

/-- `run` of `compaction/worker.rs` (lines 10-30): pop at most one
partition; if the queue was empty return with no effect; otherwise call the
tree's `compact` with the partition's configured strategy and
`safe_gc_seqno = tracker.get_seqno_safe_to_gc()`.  The tree primitive's
outcome is the parameter `compactResult`; an `Err` is logged and swallowed.
The result records the new queue, the `compact` calls made (strategy,
seqno) and the errors logged; the return type has no error component, as in
the source (`fn run(...)` returns unit). -/
def run (m : CompactionManager) (t : SnapshotTracker)
    (compactResult : PartitionHandle → Nat → Except (List Nat) Unit) :
    CompactionManager × List (Nat × Nat) × List (List Nat) :=
  match m.pop with
  | (none, m2) => (m2, [], [])
  | (some item, m2) =>
    match compactResult item t.get_seqno_safe_to_gc with
    | Except.ok _ => (m2, [(item.strategyId, t.get_seqno_safe_to_gc)], [])
    | Except.error e =>
      (m2, [(item.strategyId, t.get_seqno_safe_to_gc)], [e])

/-- C9 -- a compaction worker run never propagates an error: on an empty
queue it returns with no effect; otherwise it pops exactly one partition
and calls `compact` with that partition's strategy and the tracker's
`get_seqno_safe_to_gc`, and a failing `compact` only adds a log entry --
the queue outcome and the calls made are the same as on success. -/
theorem compaction_worker_swallows_errors (t : SnapshotTracker)
    (f : PartitionHandle → Nat → Except (List Nat) Unit) :
    (∀ s : Nat, run (CompactionManager.mk [] s) t f
      = (CompactionManager.mk [] s, [], [])) ∧
    (∀ (h : PartitionHandle) (rest : List PartitionHandle) (s : Nat),
      (run (CompactionManager.mk (h :: rest) s) t f).1
          = CompactionManager.mk rest s ∧
      (run (CompactionManager.mk (h :: rest) s) t f).2.1
          = [(h.strategyId, t.get_seqno_safe_to_gc)] ∧
      (run (CompactionManager.mk (h :: rest) s) t f).2.2
          = (match f h t.get_seqno_safe_to_gc with
             | Except.ok _ => []
             | Except.error e => [e])) := by
  refine ⟨fun s => rfl, fun h rest s => ?_⟩
  unfold run CompactionManager.pop
  cases hr : f h t.get_seqno_safe_to_gc <;> simp [hr]

/-- Modelled from the spec: the varint encoding of marker integer fields
(`journal/marker.rs` is not in the repository snapshot; section 6.1 leaves
the exact varint open and the open-questions note says to pick one
consistently -- LEB128 is chosen: low 7 bits first, high bit marks
continuation). -/
def encodeVarint (n : Nat) : List Nat :=
  if n < 128 then [n] else (n % 128 + 128) :: encodeVarint (n / 128)
decreasing_by exact Nat.div_lt_self (by omega) (by omega)

/-- Modelled from the spec: the varint decoder matching `encodeVarint`. -/
def parseVarint : List Nat → Option (Nat × List Nat)
  | [] => none
  | b :: rest =>
    if b < 128 then some (b, rest)
    else
      match parseVarint rest with
      | some nr => some (nr.1 * 128 + (b - 128), nr.2)
      | none => none

theorem parseVarint_encode (n : Nat) (s : List Nat) :
    parseVarint (encodeVarint n ++ s) = some (n, s) := by
  induction n using Nat.strong_induction_on with
  | _ n ih =>
    by_cases h : n < 128
    · rw [encodeVarint]
      simp [h, parseVarint]
    · rw [encodeVarint]
      simp only [h, if_false]
      rw [List.cons_append]
      have hb : ¬(n % 128 + 128 < 128) := by omega
      unfold parseVarint
      simp only [hb, if_false]
      rw [ih (n / 128) (Nat.div_lt_self (by omega) (by omega))]
      simp only [Option.some.injEq, Prod.mk.injEq]
      exact ⟨by omega, trivial⟩

theorem parseVarint_length : ∀ (l : List Nat) (n : Nat) (r : List Nat),
    parseVarint l = some (n, r) → r.length < l.length := by
  intro l
  induction l with
  | nil => intro n r h; cases h
  | cons b rest ih =>
    intro n r h
    unfold parseVarint at h
    by_cases hb : b < 128
    · simp only [hb, if_true, Option.some.injEq, Prod.mk.injEq] at h
      obtain ⟨h1, h2⟩ := h
      subst h2
      simp
    · simp only [hb, if_false] at h
      cases hp : parseVarint rest with
      | none => rw [hp] at h; cases h
      | some nr =>
        rw [hp] at h
        simp only [Option.some.injEq, Prod.mk.injEq] at h
        obtain ⟨h1, h2⟩ := h
        subst h2
        have := ih nr.1 nr.2 (by rw [hp])
        simp
        omega

/-- Modelled from the spec: little-endian u32 encoding (used for the End
marker's CRC field, section 6.1). -/
def encodeU32le (n : Nat) : List Nat :=
  [n % 256, n / 256 % 256, n / 65536 % 256, n / 16777216 % 256]

/-- Modelled from the spec: little-endian u32 decoder. -/
def parseU32le : List Nat → Option (Nat × List Nat)
  | a :: b :: c :: d :: rest =>
    some (a + b * 256 + c * 65536 + d * 16777216, rest)
  | _ => none

theorem parseU32le_encode (n : Nat) (s : List Nat) (h : n < 4294967296) :
    parseU32le (encodeU32le n ++ s) = some (n, s) := by
  unfold encodeU32le parseU32le
  simp only [List.cons_append, List.nil_append, Option.some.injEq,
    Prod.mk.injEq]
  exact ⟨by omega, trivial⟩

/-- Modelled from the spec: reading `n` raw bytes (partition name, key and
value payloads of an Item marker). -/
def parseBytesN (n : Nat) (l : List Nat) : Option (List Nat × List Nat) :=
  if n ≤ l.length then some (l.take n, l.drop n) else none

theorem parseBytesN_encode (xs s : List Nat) :
    parseBytesN xs.length (xs ++ s) = some (xs, s) := by
  unfold parseBytesN
  rw [if_pos (by simp)]
  rw [List.take_left, List.drop_left]

theorem parseBytesN_length (n : Nat) (l : List Nat) (xs r : List Nat)
    (h : parseBytesN n l = some (xs, r)) : r.length ≤ l.length := by
  unfold parseBytesN at h
  by_cases hn : n ≤ l.length
  · rw [if_pos hn] at h
    simp only [Option.some.injEq, Prod.mk.injEq] at h
    obtain ⟨h1, h2⟩ := h
    subst h2
    simp
  · rw [if_neg hn] at h
    cases h

/-- Modelled from the spec: `value_type` byte (`0 = Value`,
`1 = Tombstone`, section 6.1). -/
def encodeValueType : ValueType → Nat
  | ValueType.value => 0
  | ValueType.tombstone => 1

/-- Modelled from the spec: `value_type` byte decoder; any other byte is a
malformed Item. -/
def parseValueType (b : Nat) : Option ValueType :=
  if b = 0 then some ValueType.value
  else if b = 1 then some ValueType.tombstone
  else none

theorem parseValueType_encode (vt : ValueType) :
    parseValueType (encodeValueType vt) = some vt := by
  cases vt <;> rfl

/-- One batch item as journaled: partition name, key, value, value type
(`batch::item::Item`; section 6.1 Item payload). -/
structure BatchItem where
  partitionName : Bytes
  key : Bytes
  value : Bytes
  valueType : ValueType
deriving DecidableEq

/-- Modelled from the spec: the CRC-32 bit step (reflected polynomial
`0xEDB88320`); the End marker checksum algorithm is not in the snapshot. -/
def crc32Step (c : Nat) : Nat :=
  if c % 2 = 1 then (c / 2) ^^^ 0xEDB88320 else c / 2

/-- `n` iterations of the CRC-32 bit step. -/
def crc32Rounds : Nat → Nat → Nat
  | 0, c => c
  | n + 1, c => crc32Rounds n (crc32Step c)

/-- CRC-32 main loop over a byte list. -/
def crc32Aux : List Nat → Nat → Nat
  | [], c => c
  | b :: rest, c => crc32Aux rest (crc32Rounds 8 (c ^^^ (b % 256)))

/-- Modelled from the spec: CRC-32 (ISO-HDLC) of a byte list, reduced to
32 bits. -/
def crc32 (l : List Nat) : Nat :=
  (crc32Aux l 0xFFFFFFFF ^^^ 0xFFFFFFFF) % 4294967296

theorem crc32_lt (l : List Nat) : crc32 l < 4294967296 :=
  Nat.mod_lt _ (by omega)

/-- Modelled from the spec: the Start marker (tag `0x00`, then varint
item_count, varint seqno, u8 compression_kind = 0; section 6.1). -/
def encodeStart (count seqno : Nat) : List Nat :=
  0 :: (encodeVarint count ++ encodeVarint seqno ++ [0])

/-- Modelled from the spec: Start marker decoder; any other tag or a
reserved compression kind is a deviation. -/
def parseStart (l : List Nat) : Option ((Nat × Nat) × List Nat) :=
  match l with
  | 0 :: r =>
    (parseVarint r).bind fun cp =>
    (parseVarint cp.2).bind fun sp =>
    match sp.2 with
    | 0 :: rest => some ((cp.1, sp.1), rest)
    | _ => none
  | _ => none

/-- Modelled from the spec: the Item marker (tag `0x01`, then
varint-prefixed partition name, key and value, and the value_type byte;
section 6.1). -/
def encodeItem (it : BatchItem) : List Nat :=
  1 :: (encodeVarint it.partitionName.length ++ it.partitionName
     ++ encodeVarint it.key.length ++ it.key
     ++ encodeVarint it.value.length ++ it.value
     ++ [encodeValueType it.valueType])

/-- Modelled from the spec: Item marker decoder. -/
def parseItem (l : List Nat) : Option (BatchItem × List Nat) :=
  match l with
  | 1 :: r =>
    (parseVarint r).bind fun pl =>
    (parseBytesN pl.1 pl.2).bind fun pb =>
    (parseVarint pb.2).bind fun kl =>
    (parseBytesN kl.1 kl.2).bind fun kb =>
    (parseVarint kb.2).bind fun vl =>
    (parseBytesN vl.1 vl.2).bind fun vb =>
    match vb.2 with
    | t :: rest =>
      (parseValueType t).map fun vt => (⟨pb.1, kb.1, vb.1, vt⟩, rest)
    | [] => none
  | _ => none

/-- Modelled from the spec: the End marker (tag `0x02`, then the u32le
CRC-32 over the bytes from the Start tag through the last Item;
section 6.1). -/
def encodeEnd (crc : Nat) : List Nat :=
  2 :: encodeU32le crc

/-- Modelled from the spec: End marker decoder. -/
def parseEnd (l : List Nat) : Option (Nat × List Nat) :=
  match l with
  | 2 :: r => parseU32le r
  | _ => none

/-- Modelled from the spec: exactly `item_count` consecutive Items. -/
def parseItems : Nat → List Nat → Option (List BatchItem × List Nat)
  | 0, l => some ([], l)
  | n + 1, l =>
    (parseItem l).bind fun ir =>
    (parseItems n ir.2).map fun isr => (ir.1 :: isr.1, isr.2)

/-- Concatenated Item encodings. -/
def encodeItems : List BatchItem → List Nat
  | [] => []
  | it :: rest => encodeItem it ++ encodeItems rest

/-- A committed batch as recovered from the journal: its items and the
seqno from its Start marker. -/
structure Batch where
  items : List BatchItem
  seqno : Nat
deriving DecidableEq

/-- The bytes of a batch record before its End marker: Start marker plus
all Items; the CRC is computed over exactly these bytes. -/
def encodeBatchBody (b : Batch) : List Nat :=
  encodeStart b.items.length b.seqno ++ encodeItems b.items

/-- Modelled from the spec: a full batch record,
`Start · Item × item_count · End` with matching CRC (section 6.1). -/
def encodeBatch (b : Batch) : List Nat :=
  encodeBatchBody b ++ encodeEnd (crc32 (encodeBatchBody b))

/-- A sequence of complete, checksum-valid batch records. -/
def encodeBatches : List Batch → List Nat
  | [] => []
  | b :: rest => encodeBatch b ++ encodeBatches rest

/-- Modelled from the spec: recognize one complete valid batch at the head
of the stream -- Start, exactly item_count Items, then an End whose
checksum over the consumed Start-to-last-Item bytes verifies
(section 4.C, step 2).  Any deviation yields `none`. -/
def parseBatch (l : List Nat) : Option (Batch × List Nat) :=
  match parseStart l with
  | none => none
  | some csr =>
    match parseItems csr.1.1 csr.2 with
    | none => none
    | some ir =>
      match parseEnd ir.2 with
      | none => none
      | some cr =>
        if crc32 (l.take (l.length - ir.2.length)) = cr.1
        then some (⟨ir.1, csr.1.2⟩, cr.2) else none

/-- Fuel-indexed reader loop. -/
def readJournalFuel : Nat → List Nat → List Batch
  | 0, _ => []
  | fuel + 1, l =>
    match parseBatch l with
    | some br => br.1 :: readJournalFuel fuel br.2
    | none => []

/-- Modelled from the spec: the journal reader's recovery algorithm
(section 4.C; `journal/reader.rs` is not in the repository snapshot):
parse batches sequentially from offset 0; at the first deviation discard
everything from the start of the current incomplete batch to end-of-file
and terminate successfully, returning all previously completed batches.
The return type has no error case: recovery never errors on tail
garbage. -/
def readJournal (l : List Nat) : List Batch :=
  readJournalFuel (l.length + 1) l

theorem parseStart_encode (c q : Nat) (s : List Nat) :
    parseStart (encodeStart c q ++ s) = some ((c, q), s) := by
  simp [parseStart, encodeStart, parseVarint_encode, List.append_assoc]

theorem parseItem_encode (it : BatchItem) (s : List Nat) :
    parseItem (encodeItem it ++ s) = some (it, s) := by
  simp [parseItem, encodeItem, parseVarint_encode, parseBytesN_encode,
    parseValueType_encode, List.append_assoc]

theorem parseItems_encode (items : List BatchItem) (s : List Nat) :
    parseItems items.length (encodeItems items ++ s) = some (items, s) := by
  induction items with
  | nil => simp [parseItems, encodeItems]
  | cons it rest ih =>
    simp [parseItems, encodeItems, parseItem_encode, List.append_assoc, ih]

theorem parseEnd_encode (crc : Nat) (s : List Nat) (h : crc < 4294967296) :
    parseEnd (encodeEnd crc ++ s) = some (crc, s) := by
  simp [parseEnd, encodeEnd, List.cons_append]
  rw [parseU32le_encode crc s h]

theorem parseBatch_encode (b : Batch) (s : List Nat) :
    parseBatch (encodeBatch b ++ s) = some (b, s) := by
  have hstart : parseStart (encodeBatch b ++ s)
      = some ((b.items.length, b.seqno),
          encodeItems b.items
            ++ (encodeEnd (crc32 (encodeBatchBody b)) ++ s)) := by
    rw [encodeBatch, encodeBatchBody, List.append_assoc, List.append_assoc]
    exact parseStart_encode _ _ _
  have hitems : parseItems b.items.length
      (encodeItems b.items ++ (encodeEnd (crc32 (encodeBatchBody b)) ++ s))
      = some (b.items, encodeEnd (crc32 (encodeBatchBody b)) ++ s) :=
    parseItems_encode _ _
  have hend : parseEnd (encodeEnd (crc32 (encodeBatchBody b)) ++ s)
      = some (crc32 (encodeBatchBody b), s) :=
    parseEnd_encode _ _ (crc32_lt _)
  have htake : (encodeBatch b ++ s).take
      ((encodeBatch b ++ s).length
        - (encodeEnd (crc32 (encodeBatchBody b)) ++ s).length)
      = encodeBatchBody b := by
    have hlen : (encodeBatch b ++ s).length
        - (encodeEnd (crc32 (encodeBatchBody b)) ++ s).length
        = (encodeBatchBody b).length := by
      simp [encodeBatch, List.length_append]
    rw [hlen, encodeBatch, List.append_assoc, List.take_left]
  unfold parseBatch
  rw [hstart]
  simp only [hitems, hend, htake]
  simp

theorem parseU32le_length (l : List Nat) (n : Nat) (r : List Nat)
    (h : parseU32le l = some (n, r)) : r.length ≤ l.length := by
  unfold parseU32le at h
  split at h
  · simp only [Option.some.injEq, Prod.mk.injEq] at h
    obtain ⟨h1, h2⟩ := h
    subst h2
    simp only [List.length_cons]
    omega
  · simp at h

theorem parseStart_length (l : List Nat) (cs : Nat × Nat) (r : List Nat)
    (h : parseStart l = some (cs, r)) : r.length < l.length := by
  unfold parseStart at h
  split at h
  · rename_i t
    rw [Option.bind_eq_some] at h
    obtain ⟨cp, hcp, h⟩ := h
    rw [Option.bind_eq_some] at h
    obtain ⟨sp, hsp, h⟩ := h
    split at h
    · rename_i rest heq
      simp only [Option.some.injEq, Prod.mk.injEq] at h
      obtain ⟨h1, h2⟩ := h
      subst h2
      have L1 := parseVarint_length t cp.1 cp.2 hcp
      have L2 := parseVarint_length cp.2 sp.1 sp.2 hsp
      have L3 : rest.length < sp.2.length := by
        rw [heq]
        simp
      simp only [List.length_cons]
      omega
    · simp at h
  · simp at h

theorem parseItem_length (l : List Nat) (it : BatchItem) (r : List Nat)
    (h : parseItem l = some (it, r)) : r.length < l.length := by
  unfold parseItem at h
  split at h
  · rename_i t
    rw [Option.bind_eq_some] at h
    obtain ⟨pl, hpl, h⟩ := h
    rw [Option.bind_eq_some] at h
    obtain ⟨pb, hpb, h⟩ := h
    rw [Option.bind_eq_some] at h
    obtain ⟨kl, hkl, h⟩ := h
    rw [Option.bind_eq_some] at h
    obtain ⟨kb, hkb, h⟩ := h
    rw [Option.bind_eq_some] at h
    obtain ⟨vl, hvl, h⟩ := h
    rw [Option.bind_eq_some] at h
    obtain ⟨vb, hvb, h⟩ := h
    split at h
    · rename_i t2 rest2 heq
      rw [Option.map_eq_some'] at h
      obtain ⟨vt, hvt, h⟩ := h
      simp only [Prod.mk.injEq] at h
      obtain ⟨h1, h2⟩ := h
      subst h2
      have L1 := parseVarint_length t pl.1 pl.2 hpl
      have L2 := parseBytesN_length pl.1 pl.2 pb.1 pb.2 hpb
      have L3 := parseVarint_length pb.2 kl.1 kl.2 hkl
      have L4 := parseBytesN_length kl.1 kl.2 kb.1 kb.2 hkb
      have L5 := parseVarint_length kb.2 vl.1 vl.2 hvl
      have L6 := parseBytesN_length vl.1 vl.2 vb.1 vb.2 hvb
      have L7 : rest2.length < vb.2.length := by
        rw [heq]
        simp
      simp only [List.length_cons]
      omega
    · simp at h
  · simp at h

theorem parseItems_length : ∀ (n : Nat) (l : List Nat)
    (its : List BatchItem) (r : List Nat),
    parseItems n l = some (its, r) → r.length ≤ l.length := by
  intro n
  induction n with
  | zero =>
    intro l its r h
    unfold parseItems at h
    simp only [Option.some.injEq, Prod.mk.injEq] at h
    obtain ⟨h1, h2⟩ := h
    subst h2
    exact Nat.le_refl _
  | succ m ih =>
    intro l its r h
    unfold parseItems at h
    rw [Option.bind_eq_some] at h
    obtain ⟨ir, hir, h⟩ := h
    rw [Option.map_eq_some'] at h
    obtain ⟨isr, hisr, h⟩ := h
    simp only [Prod.mk.injEq] at h
    obtain ⟨h1, h2⟩ := h
    subst h2
    have L1 := parseItem_length l ir.1 ir.2 hir
    have L2 := ih ir.2 isr.1 isr.2 hisr
    omega

theorem parseEnd_length (l : List Nat) (n : Nat) (r : List Nat)
    (h : parseEnd l = some (n, r)) : r.length < l.length := by
  unfold parseEnd at h
  split at h
  · rename_i t
    have := parseU32le_length t n r h
    simp only [List.length_cons]
    omega
  · simp at h

theorem parseBatch_length (l : List Nat) (b : Batch) (r : List Nat)
    (h : parseBatch l = some (b, r)) : r.length < l.length := by
  unfold parseBatch at h
  split at h
  · simp at h
  · rename_i csr hcs
    split at h
    · simp at h
    · rename_i ir hir
      split at h
      · simp at h
      · rename_i cr hcr
        split at h
        · simp only [Option.some.injEq, Prod.mk.injEq] at h
          obtain ⟨h1, h2⟩ := h
          subst h2
          have L1 := parseStart_length l csr.1 csr.2 hcs
          have L2 := parseItems_length csr.1.1 csr.2 ir.1 ir.2 hir
          have L3 := parseEnd_length ir.2 cr.1 cr.2 hcr
          omega
        · simp at h

theorem readJournalFuel_succ (fuel : Nat) (l : List Nat) :
    readJournalFuel (fuel + 1) l
      = match parseBatch l with
        | some br => br.1 :: readJournalFuel fuel br.2
        | none => [] := rfl

theorem readJournalFuel_congr : ∀ (f1 f2 : Nat) (l : List Nat),
    l.length < f1 → l.length < f2 →
    readJournalFuel f1 l = readJournalFuel f2 l := by
  intro f1
  induction f1 with
  | zero =>
    intro f2 l h1 h2
    exact absurd h1 (Nat.not_lt_zero _)
  | succ g ih =>
    intro f2 l h1 h2
    cases f2 with
    | zero => exact absurd h2 (Nat.not_lt_zero _)
    | succ g2 =>
      rw [readJournalFuel_succ, readJournalFuel_succ]
      cases hp : parseBatch l with
      | none => rfl
      | some br =>
        have hlt := parseBatch_length l br.1 br.2 hp
        exact congrArg (br.1 :: ·) (ih g2 br.2 (by omega) (by omega))

theorem encodeBatch_length_pos (b : Batch) : 0 < (encodeBatch b).length := by
  simp [encodeBatch, encodeBatchBody, encodeStart]

theorem readJournal_cons (b : Batch) (rest : List Nat) :
    readJournal (encodeBatch b ++ rest) = b :: readJournal rest := by
  unfold readJournal
  rw [readJournalFuel_succ, parseBatch_encode]
  show b :: readJournalFuel (encodeBatch b ++ rest).length rest
      = b :: readJournalFuel (rest.length + 1) rest
  refine congrArg (b :: ·) ?_
  apply readJournalFuel_congr
  · have := encodeBatch_length_pos b
    simp only [List.length_append]
    omega
  · omega

theorem readJournal_batches (bs : List Batch) (s : List Nat) :
    readJournal (encodeBatches bs ++ s) = bs ++ readJournal s := by
  induction bs with
  | nil => simp [encodeBatches]
  | cons b rest ih =>
    rw [show encodeBatches (b :: rest)
        = encodeBatch b ++ encodeBatches rest from rfl,
      List.append_assoc, readJournal_cons, ih]
    rfl

theorem readJournal_eq_nil (s : List Nat) (h : parseBatch s = none) :
    readJournal s = [] := by
  unfold readJournal
  rw [readJournalFuel_succ, h]

/-- C2 -- for every shard file consisting of a sequence of complete,
checksum-valid batches followed by a corrupted or extraneous suffix -- any
byte tail from which the parser cannot recognize a complete checksum-valid
batch at its start (random garbage and stray well-formed `Start`, `Item` or
`End` markers all satisfy this, as the witness shows) -- the journal reader
terminates successfully and returns exactly the sequence of complete prior
batches: never an error (the reader is total by construction) and never a
batch from the corrupted suffix. -/
theorem journal_recovery_returns_exact_prior_batches (bs : List Batch)
    (s : List Nat) (hcorrupt : parseBatch s = none) :
    readJournal (encodeBatches bs ++ s) = bs := by
  rw [readJournal_batches, readJournal_eq_nil s hcorrupt, List.append_nil]

/-- The two-item batch written by the `journal_truncation_*` tests
(`journal/mod.rs`): `("default", "abc" → "def")` and
`("default", "yxc" → "ghj")` at seqno 0. -/
def testBatch : Batch :=
  ⟨[⟨[100, 101, 102, 97, 117, 108, 116], [97, 98, 99],
      [100, 101, 102], ValueType.value⟩,
    ⟨[100, 101, 102, 97, 117, 108, 116], [121, 120, 99],
      [103, 104, 106], ValueType.value⟩], 0⟩

/-- The raw garbage bytes `b"09pmu35w3a9mp53bao9upw3ab5up"` appended by
test `journal_truncation_corrupt_bytes`. -/
def garbageBytes : List Nat :=
  [48, 57, 112, 109, 117, 51, 53, 119, 51, 97, 57, 109, 112, 53, 51, 98,
   97, 111, 57, 117, 112, 119, 51, 97, 98, 53, 117, 112]

/-- Five stray `Start { item_count = 2, seqno = 64, compression = None }`
markers, as appended by test `journal_truncation_repeating_start_marker`. -/
def strayStarts : List Nat :=
  encodeStart 2 64 ++ encodeStart 2 64 ++ encodeStart 2 64
    ++ encodeStart 2 64 ++ encodeStart 2 64

/-- Witness for C2: the corrupt-bytes and repeated-stray-Start scenarios of
the tests -- both suffixes satisfy the corruption hypothesis, and the
reader returns exactly the one originally committed batch. -/
theorem journal_recovery_returns_exact_prior_batches_witness :
    parseBatch (garbageBytes ++ garbageBytes ++ garbageBytes ++ garbageBytes
        ++ garbageBytes) = none ∧
    readJournal (encodeBatches [testBatch]
        ++ (garbageBytes ++ garbageBytes ++ garbageBytes ++ garbageBytes
            ++ garbageBytes)) = [testBatch] ∧
    parseBatch strayStarts = none ∧
    readJournal (encodeBatches [testBatch] ++ strayStarts) = [testBatch] := by
  have hs : strayStarts
      = [0, 2, 64, 0, 0, 2, 64, 0, 0, 2, 64, 0, 0, 2, 64, 0, 0, 2, 64, 0] := by
    simp [strayStarts, encodeStart, encodeVarint]
  have hsn : parseBatch strayStarts = none := by
    rw [hs]
    decide
  refine ⟨by decide, ?_, hsn, ?_⟩
  · exact journal_recovery_returns_exact_prior_batches [testBatch] _
      (by decide)
  · exact journal_recovery_returns_exact_prior_batches [testBatch]
      strayStarts hsn

end Fjall
